import Mathlib

/-!
# Verification of the PHP built-in symbol generator

Shallow embedding of `src/mcp-server/chainguard/generate_php_builtins.py`.

The script scans a corpus of `.php` stub files with `re.MULTILINE`-anchored
regular expressions, collects function / class / method / constant names into
Python sets, filters function and method candidates through a keyword filter,
and emits a report with sorted symbol lists and per-category counts.  The
orchestration (`generate_builtins` / `main`) clones the stub repository into a
scratch directory when no explicit stubs path is supplied and removes it in a
`finally` block.

Every regular expression of the script is anchored at `^` (line start) and is
deterministic in the sense that Python's backtracking can never rescue a failed
greedy run: each greedy sub-match (`\s*`, `\s+`, `[a-zA-Z_][a-zA-Z0-9_]*`,
`[^)]*`) is followed by a literal that can never occur inside the repeated
class, and each optional group `(?:public|protected|private)?`,
`(?:static\s+)?`, `(?:abstract\s+)?` starts with a literal that can never begin
the continuation that follows the group.  The matchers below therefore embed
each regex as a deterministic scanner, and `scanAux` reproduces
`re.finditer`'s non-overlapping left-to-right scan over line-start positions.
-/

namespace PhpBuiltins

/-- Python `\s` on the character classes reachable here (ASCII whitespace). -/
def isWsChar (c : Char) : Bool :=
  c == ' ' || c == '\t' || c == '\n' || c == '\r' || c == '\x0b' || c == '\x0c'

/-- Regex class `[a-zA-Z_]` (first char of a captured identifier). -/
def isIdentStart (c : Char) : Bool :=
  (decide ('a' ≤ c) && decide (c ≤ 'z')) || (decide ('A' ≤ c) && decide (c ≤ 'Z')) || c == '_'

/-- Regex class `[a-zA-Z0-9_]`. -/
def isIdentChar (c : Char) : Bool :=
  isIdentStart c || (decide ('0' ≤ c) && decide (c ≤ '9'))

/-- Regex class `[A-Z]` (first char of a class/interface/trait capture). -/
def isUpperChar (c : Char) : Bool :=
  decide ('A' ≤ c) && decide (c ≤ 'Z')

/-- Regex class `[A-Z_]` (first char of a constant capture). -/
def isConstStart (c : Char) : Bool :=
  isUpperChar c || c == '_'

/-- Regex class `[A-Z0-9_]`. -/
def isConstChar (c : Char) : Bool :=
  isConstStart c || (decide ('0' ≤ c) && decide (c ≤ '9'))

/-- Greedy `\s*`. -/
def skipWs (s : List Char) : List Char := s.dropWhile isWsChar

/-- A literal string inside a regex. -/
def expectStr : List Char → List Char → Option (List Char)
  | [], s => some s
  | _ :: _, [] => none
  | k :: ks, c :: s => if c = k then expectStr ks s else none

/-- Greedy `\s+` (at least one whitespace character, then all of them). -/
def wsPlus (s : List Char) : Option (List Char) :=
  match s with
  | [] => none
  | c :: r => if isWsChar c then some (r.dropWhile isWsChar) else none

/-- A single-character literal inside a regex. -/
def expectChar (k : Char) (s : List Char) : Option (List Char) :=
  match s with
  | [] => none
  | c :: r => if c = k then some r else none

/-- The regex class `['"]` (either quote closes, as in the `define` pattern). -/
def expectQuote (s : List Char) : Option (List Char) :=
  match s with
  | [] => none
  | c :: r => if c = '\'' || c = '"' then some r else none

/-- A greedy capture group `(first rest*)`. -/
def captureWhile (first rest : Char → Bool) (s : List Char) :
    Option (List Char × List Char) :=
  match s with
  | [] => none
  | c :: r => if first c then some (c :: r.takeWhile rest, r.dropWhile rest) else none

def fdata : List Char := ['f', 'u', 'n', 'c', 't', 'i', 'o', 'n']
def pubData : List Char := ['p', 'u', 'b', 'l', 'i', 'c']
def protData : List Char := ['p', 'r', 'o', 't', 'e', 'c', 't', 'e', 'd']
def privData : List Char := ['p', 'r', 'i', 'v', 'a', 't', 'e']
def statData : List Char := ['s', 't', 'a', 't', 'i', 'c']
def absData : List Char := ['a', 'b', 's', 't', 'r', 'a', 'c', 't']
def classData : List Char := ['c', 'l', 'a', 's', 's']
def ifaceData : List Char := ['i', 'n', 't', 'e', 'r', 'f', 'a', 'c', 'e']
def traitData : List Char := ['t', 'r', 'a', 'i', 't']
def defineData : List Char := ['d', 'e', 'f', 'i', 'n', 'e']
def constData : List Char := ['c', 'o', 'n', 's', 't']

/-- A compiled pattern: applied at one position, yields the captured name and
the remaining input after the whole match. -/
def Matcher : Type := List Char → Option (String × List Char)

/-- `(?:public|protected|private)?`.  The alternatives are tried left to right;
none is a prefix of another, and if one matches textually but the rest of the
pattern fails, the empty alternative fails as well (the continuation
`\s*(?:static\s+)?function` cannot start with `p`), so committing is faithful. -/
def dropVis (s : List Char) : List Char :=
  match expectStr pubData s with
  | some r => r
  | none =>
    match expectStr protData s with
    | some r => r
    | none =>
      match expectStr privData s with
      | some r => r
      | none => s

/-- `(?:static\s+)?`.  If `static` matches textually the group is committed:
when `\s+` then fails, the empty alternative would require `function` to start
with `s`, which also fails. -/
def dropStatic (s : List Char) : Option (List Char) :=
  match expectStr statData s with
  | some r => wsPlus r
  | none => some s

/-- `(?:abstract\s+)?`, committed for the same reason (continuation `class`
cannot start with `a`). -/
def dropAbstract (s : List Char) : Option (List Char) :=
  match expectStr absData s with
  | some r => wsPlus r
  | none => some s

/-- `^\s*function\s+([a-zA-Z_][a-zA-Z0-9_]*)\s*\(` (first FUNCTION_PATTERNS entry). -/
def matchFun1 : Matcher := fun s => do
  let s1 ← expectStr fdata (skipWs s)
  let s2 ← wsPlus s1
  let (nm, s3) ← captureWhile isIdentStart isIdentChar s2
  let rest ← expectChar '(' (skipWs s3)
  pure (String.mk nm, rest)

/-- `^\s*function\s+([a-zA-Z_][a-zA-Z0-9_]*)\s*\([^)]*\)\s*:` (second
FUNCTION_PATTERNS entry; `[^)]*` stops at the first `)`, which the following
literal then consumes). -/
def matchFun2 : Matcher := fun s => do
  let s1 ← expectStr fdata (skipWs s)
  let s2 ← wsPlus s1
  let (nm, s3) ← captureWhile isIdentStart isIdentChar s2
  let s4 ← expectChar '(' (skipWs s3)
  let s5 ← expectChar ')' (s4.dropWhile (fun c => !(decide (c = ')'))))
  let rest ← expectChar ':' (skipWs s5)
  pure (String.mk nm, rest)

/-- `^\s*(?:abstract\s+)?class\s+([A-Z][a-zA-Z0-9_]*)`. -/
def matchClass1 : Matcher := fun s => do
  let s1 ← dropAbstract (skipWs s)
  let s2 ← expectStr classData s1
  let s3 ← wsPlus s2
  let (nm, rest) ← captureWhile isUpperChar isIdentChar s3
  pure (String.mk nm, rest)

/-- `^\s*interface\s+([A-Z][a-zA-Z0-9_]*)`. -/
def matchClass2 : Matcher := fun s => do
  let s1 ← expectStr ifaceData (skipWs s)
  let s2 ← wsPlus s1
  let (nm, rest) ← captureWhile isUpperChar isIdentChar s2
  pure (String.mk nm, rest)

/-- `^\s*trait\s+([A-Z][a-zA-Z0-9_]*)`. -/
def matchClass3 : Matcher := fun s => do
  let s1 ← expectStr traitData (skipWs s)
  let s2 ← wsPlus s1
  let (nm, rest) ← captureWhile isUpperChar isIdentChar s2
  pure (String.mk nm, rest)

/-- `^\s*(?:public|protected|private)?\s*(?:static\s+)?function\s+([a-zA-Z_][a-zA-Z0-9_]*)\s*\(`
(the single METHOD_PATTERNS entry). -/
def matchMeth : Matcher := fun s => do
  let s1 := dropVis (skipWs s)
  let s2 ← dropStatic (skipWs s1)
  let s3 ← expectStr fdata s2
  let s4 ← wsPlus s3
  let (nm, s5) ← captureWhile isIdentStart isIdentChar s4
  let rest ← expectChar '(' (skipWs s5)
  pure (String.mk nm, rest)

/-- `^\s*define\s*\(\s*['"]([A-Z_][A-Z0-9_]*)['"]`. -/
def matchConst1 : Matcher := fun s => do
  let s1 ← expectStr defineData (skipWs s)
  let s2 ← expectChar '(' (skipWs s1)
  let s3 ← expectQuote (skipWs s2)
  let (nm, s4) ← captureWhile isConstStart isConstChar s3
  let rest ← expectQuote s4
  pure (String.mk nm, rest)

/-- `^\s*const\s+([A-Z_][A-Z0-9_]*)\s*=`. -/
def matchConst2 : Matcher := fun s => do
  let s1 ← expectStr constData (skipWs s)
  let s2 ← wsPlus s1
  let (nm, s3) ← captureWhile isConstStart isConstChar s2
  let rest ← expectChar '=' (skipWs s3)
  pure (String.mk nm, rest)

/-- `re.finditer` over a `re.MULTILINE` pattern anchored at `^`: scan left to
right; a match may start only at position 0 or right after a newline; after a
match of `d` characters, scanning resumes at its end (non-overlapping), so the
next `d - 1` positions after the match's first character are skipped.  `ls`
says whether the current position is a line start, `k` how many positions of
the previous match are still to be skipped. -/
def scanAux (pat : Matcher) : List Char → Bool → Nat → List String
  | [], _, _ => []
  | c :: cs, _, Nat.succ k => scanAux pat cs (c == '\n') k
  | c :: cs, false, 0 => scanAux pat cs (c == '\n') 0
  | c :: cs, true, 0 =>
    match pat (c :: cs) with
    | some (n, rest) => n :: scanAux pat cs (c == '\n') (cs.length - rest.length)
    | none => scanAux pat cs (c == '\n') 0

/-- All names captured by `pat.finditer(content)`, in order. -/
def scanNames (pat : Matcher) (content : String) : List String :=
  scanAux pat content.data true 0

/-- FUNCTION_PATTERNS. -/
def FUNCTION_PATTERNS : List Matcher := [matchFun1, matchFun2]
/-- CLASS_PATTERNS. -/
def CLASS_PATTERNS : List Matcher := [matchClass1, matchClass2, matchClass3]
/-- METHOD_PATTERNS. -/
def METHOD_PATTERNS : List Matcher := [matchMeth]
/-- CONSTANT_PATTERNS. -/
def CONSTANT_PATTERNS : List Matcher := [matchConst1, matchConst2]

/-- The keyword set of `PHPStubsExtractor._is_valid_function_name`. -/
def keywords : List String :=
  ["if", "else", "elseif", "while", "do", "for", "foreach",
   "switch", "case", "default", "break", "continue", "return",
   "try", "catch", "finally", "throw", "class", "interface",
   "trait", "extends", "implements", "public", "protected",
   "private", "static", "abstract", "final", "const", "function",
   "new", "clone", "instanceof", "use", "namespace", "echo",
   "print", "die", "exit", "include", "include_once", "require",
   "require_once", "global", "var", "list", "array", "callable",
   "self", "parent", "true", "false", "null", "and", "or", "xor",
   "as", "yield", "match", "fn", "readonly", "enum"]

/-- Python `name.lower()`: character-wise lowercasing of the name. -/
def strLower (s : String) : String := String.mk (s.data.map Char.toLower)

/-- `_is_valid_function_name`: `name.lower() not in keywords and len(name) >= 2`. -/
def isValidFunctionName (name : String) : Bool :=
  !(keywords.contains (strLower name)) && decide (2 ≤ name.length)

/-- SKIP_DIRS. -/
def SKIP_DIRS : List String := [".git", ".github", "tests", "meta", ".idea"]

/-- INCLUDE_EXTENSIONS (left empty in the script: include all). -/
def INCLUDE_EXTENSIONS : List String := []

/-- The four name sets of `PHPStubsExtractor` (Python `set`s of strings). -/
@[ext]
structure Aggregate where
  functions : Finset String
  classes : Finset String
  methods : Finset String
  constants : Finset String
deriving DecidableEq

def emptyAggregate : Aggregate :=
  { functions := ∅, classes := ∅, methods := ∅, constants := ∅ }

/-- Iterated `set.add` over a list of names. -/
def addNames (s : Finset String) (names : List String) : Finset String :=
  names.foldl (fun acc n => insert n acc) s

/-- `_extract_from_file`.  `none` stands for a file whose
`read_text` raised (unreadable file): the exception is caught, a warning is
printed (the returned `Bool`), and the sets are left unchanged.  Otherwise
each pattern list is scanned over the content; function and method candidates
pass through `_is_valid_function_name` first. -/
def extractFromFile (agg : Aggregate) (content : Option String) : Aggregate × Bool :=
  match content with
  | none => (agg, true)
  | some text =>
    ({ functions := FUNCTION_PATTERNS.foldl
         (fun s pat => addNames s ((scanNames pat text).filter isValidFunctionName))
         agg.functions,
       classes := CLASS_PATTERNS.foldl
         (fun s pat => addNames s (scanNames pat text)) agg.classes,
       methods := METHOD_PATTERNS.foldl
         (fun s pat => addNames s ((scanNames pat text).filter isValidFunctionName))
         agg.methods,
       constants := CONSTANT_PATTERNS.foldl
         (fun s pat => addNames s (scanNames pat text)) agg.constants }, false)

/-- One `.php` file found by `rglob`: its path segments (`php_file.parts`), the
name of its immediate parent directory (`php_file.parent.name`), and its
content, `none` when `read_text` raises. -/
structure PHPFile where
  parts : List String
  parentName : String
  content : Option String
deriving DecidableEq

/-- Whether the `extract_all` loop skips the file:
`any(skip in php_file.parts for skip in SKIP_DIRS)` — tuple membership is
exact segment equality. -/
def shouldSkip (parts : List String) : Bool :=
  SKIP_DIRS.any fun d => parts.contains d

/-- One iteration of the `extract_all` loop; the second component counts
warnings printed for unreadable files. -/
def processFile (st : Aggregate × Nat) (f : PHPFile) : Aggregate × Nat :=
  if shouldSkip f.parts then st
  else if !INCLUDE_EXTENSIONS.isEmpty && !INCLUDE_EXTENSIONS.contains f.parentName then st
  else
    let (agg, warned) := extractFromFile st.1 f.content
    (agg, st.2 + (if warned then 1 else 0))

/-- The `extract_all` loop over the corpus. -/
def extractAllState (files : List PHPFile) : Aggregate × Nat :=
  files.foldl processFile (emptyAggregate, 0)

/-- The aggregate after `extract_all`. -/
def extractAllAgg (files : List PHPFile) : Aggregate :=
  (extractAllState files).1

/-- Spec Scenario E corpus: one unreadable file alongside ten readable files,
each declaring one unique function. -/
def scenarioEFiles : List PHPFile :=
  [⟨["phpstorm-stubs", "broken.php"], "phpstorm-stubs", none⟩,
   ⟨["phpstorm-stubs", "a01.php"], "phpstorm-stubs", some "function f01()"⟩,
   ⟨["phpstorm-stubs", "a02.php"], "phpstorm-stubs", some "function f02()"⟩,
   ⟨["phpstorm-stubs", "a03.php"], "phpstorm-stubs", some "function f03()"⟩,
   ⟨["phpstorm-stubs", "a04.php"], "phpstorm-stubs", some "function f04()"⟩,
   ⟨["phpstorm-stubs", "a05.php"], "phpstorm-stubs", some "function f05()"⟩,
   ⟨["phpstorm-stubs", "a06.php"], "phpstorm-stubs", some "function f06()"⟩,
   ⟨["phpstorm-stubs", "a07.php"], "phpstorm-stubs", some "function f07()"⟩,
   ⟨["phpstorm-stubs", "a08.php"], "phpstorm-stubs", some "function f08()"⟩,
   ⟨["phpstorm-stubs", "a09.php"], "phpstorm-stubs", some "function f09()"⟩,
   ⟨["phpstorm-stubs", "a10.php"], "phpstorm-stubs", some "function f10()"⟩]

/-- `sorted(...)` on a Python set of strings: ascending code-point
(lexicographic) order. -/
def sortNames (s : Finset String) : List String :=
  s.sort (· ≤ ·)

/-- The dictionary returned by `extract_all`. -/
structure SymbolLists where
  functions : List String
  classes : List String
  methods : List String
  constants : List String
deriving DecidableEq

def extractAll (files : List PHPFile) : SymbolLists :=
  let a := extractAllAgg files
  { functions := sortNames a.functions,
    classes := sortNames a.classes,
    methods := sortNames a.methods,
    constants := sortNames a.constants }

/-- The `stats` block of the generated JSON. -/
structure Stats where
  functions : Nat
  classes : Nat
  methods : Nat
  constants : Nat
  total_unique : Nat
deriving DecidableEq

/-- `stats` as `generate_builtins` computes it: lengths of the sorted lists,
and `len(set(functions) | set(classes) | set(methods))` — constants are not
part of the union. -/
def buildStats (sy : SymbolLists) : Stats :=
  { functions := sy.functions.length,
    classes := sy.classes.length,
    methods := sy.methods.length,
    constants := sy.constants.length,
    total_unique :=
      (sy.functions.toFinset ∪ sy.classes.toFinset ∪ sy.methods.toFinset).card }

/-- The generated artifact (the `meta` block carries only fixed provenance
strings and a timestamp and is not modelled). -/
structure Report where
  stats : Stats
  symbols : SymbolLists
deriving DecidableEq

def buildReport (files : List PHPFile) : Report :=
  let sy := extractAll files
  { stats := buildStats sy, symbols := sy }

/-- Outcome of one `generate_builtins` call.  `report = none` means the call
raised.  `scratchExists` records whether the scratch directory created by
`tempfile.mkdtemp` still exists once the call has returned or raised. -/
structure RunOutcome where
  report : Option Report
  usedPath : String
  scratchCreated : Bool
  cloned : Bool
  cleanupNeeded : Bool
  scratchExists : Bool
deriving DecidableEq

/-- `generate_builtins(output_path, stubs_path)`.

* `fsExists` is the filesystem's existence oracle.  The script consults it
  only as `stubs_path.exists()` inside the `finally` clause, and only after
  `cleanup_needed` is true — at that point the scratch directory was created
  by `mkdtemp` and populated by a successful clone, so the check is true; the
  explicit-path branch never queries existence at all (`cleanup_needed` is
  false and Python's `and` short-circuits).
* `cloneOk` — whether `git clone` (in `clone_stubs`, `check=True`) succeeds.
* `writeOk` — whether creating the output directory and writing the JSON
  succeeds.
* `corpus` — the `.php` files `rglob` finds under the stubs path.

Faithful control flow: when `stubs_path is None`, `mkdtemp` and
`clone_stubs` run *before* the `try`/`finally` block and before
`cleanup_needed = True`, so a clone failure propagates without any cleanup;
inside the `try`, the `finally` clause removes the scratch directory
(`shutil.rmtree(stubs_path.parent)`) on success and on failure alike. -/
def generateBuiltins (fsExists : String → Bool) (stubsPath : Option String)
    (tmpName : String) (cloneOk : Bool) (writeOk : Bool)
    (corpus : List PHPFile) : RunOutcome :=
  match stubsPath with
  | some p =>
    -- explicit path: used as given; `cleanup_needed` stays False, so the
    -- `finally` clause deletes nothing and `fsExists` is never consulted.
    if writeOk then
      { report := some (buildReport corpus), usedPath := p, scratchCreated := false,
        cloned := false, cleanupNeeded := false, scratchExists := false }
    else
      { report := none, usedPath := p, scratchCreated := false,
        cloned := false, cleanupNeeded := false, scratchExists := false }
  | none =>
    if cloneOk then
      if writeOk then
        { report := some (buildReport corpus), usedPath := tmpName,
          scratchCreated := true, cloned := true, cleanupNeeded := true,
          scratchExists := false }
      else
        -- the exception from the `try` body still runs the `finally` cleanup
        { report := none, usedPath := tmpName, scratchCreated := true,
          cloned := true, cleanupNeeded := true, scratchExists := false }
    else
      -- `clone_stubs` raised before the `try` block: `cleanup_needed` is
      -- still False and the `finally` clause is never reached — the scratch
      -- directory created by `mkdtemp` survives the run.
      { report := none, usedPath := tmpName, scratchCreated := true,
        cloned := false, cleanupNeeded := false, scratchExists := true }

/-- `main()`'s exit code: 0 when `generate_builtins` returns, 1 when it
raises (`CalledProcessError` or any other exception). -/
def mainExit (fsExists : String → Bool) (stubsPath : Option String)
    (tmpName : String) (cloneOk : Bool) (writeOk : Bool)
    (corpus : List PHPFile) : Nat :=
  match (generateBuiltins fsExists stubsPath tmpName cloneOk writeOk corpus).report with
  | some _ => 0
  | none => 1

/-- All characters whitespace. -/
def WsList (l : List Char) : Prop := ∀ c ∈ l, isWsChar c = true

/-- All characters identifier characters. -/
def IdentList (l : List Char) : Prop := ∀ c ∈ l, isIdentChar c = true

/-- `pat` matches at the start of `t` capturing `n`. -/
def MatchesName (pat : Matcher) (t : List Char) (n : String) : Prop :=
  ∃ r, pat t = some (n, r)

/-- `t` is the suffix of `s` starting at a `re.MULTILINE` line start
(position 0 — only when the scan state says position 0 is a line start — or
any position directly after a newline). -/
def LineStartAt (s t : List Char) (ls : Bool) : Prop :=
  ∃ u, s = u ++ t ∧ ((u = [] ∧ ls = true) ∨ (u ≠ [] ∧ u.getLast? = some '\n'))

/-! ## Character-class facts -/

theorem ws_char_cases {c : Char} (h : isWsChar c = true) :
    c = ' ' ∨ c = '\t' ∨ c = '\n' ∨ c = '\r' ∨ c = '\x0b' ∨ c = '\x0c' := by
  simpa [isWsChar, or_assoc] using h

theorem ws_not_identStart {c : Char} (h : isWsChar c = true) : isIdentStart c = false := by
  rcases ws_char_cases h with rfl | rfl | rfl | rfl | rfl | rfl <;> decide

theorem ws_not_identChar {c : Char} (h : isWsChar c = true) : isIdentChar c = false := by
  rcases ws_char_cases h with rfl | rfl | rfl | rfl | rfl | rfl <;> decide

theorem identStart_not_ws {c : Char} (h : isIdentStart c = true) : isWsChar c = false := by
  cases hw : isWsChar c
  · rfl
  · rw [ws_not_identStart hw] at h; exact absurd h (by simp)

theorem identChar_not_ws {c : Char} (h : isIdentChar c = true) : isWsChar c = false := by
  cases hw : isWsChar c
  · rfl
  · rw [ws_not_identChar hw] at h; exact absurd h (by simp)

theorem identStart_identChar {c : Char} (h : isIdentStart c = true) : isIdentChar c = true := by
  simp [isIdentChar, h]

/-! ## List scanning helpers -/

theorem dropWhile_append_all {p : Char → Bool} {a : List Char} (b : List Char)
    (h : ∀ c ∈ a, p c = true) : (a ++ b).dropWhile p = b.dropWhile p := by
  induction a with
  | nil => rfl
  | cons c a ih =>
    simp only [List.cons_append, List.dropWhile_cons, h c (by simp), if_true]
    exact ih fun d hd => h d (by simp [hd])

theorem takeWhile_append_all {p : Char → Bool} {a : List Char} (b : List Char)
    (h : ∀ c ∈ a, p c = true) : (a ++ b).takeWhile p = a ++ b.takeWhile p := by
  induction a with
  | nil => rfl
  | cons c a ih =>
    simp only [List.cons_append, List.takeWhile_cons, h c (by simp), if_true, List.cons_inj_right]
    exact ih fun d hd => h d (by simp [hd])

theorem dropWhile_head_false {p : Char → Bool} {t : List Char}
    (h : ∀ d, t.head? = some d → p d = false) : t.dropWhile p = t := by
  cases t with
  | nil => rfl
  | cons c r => simp [List.dropWhile_cons, h c rfl]

theorem takeWhile_head_false {p : Char → Bool} {t : List Char}
    (h : ∀ d, t.head? = some d → p d = false) : t.takeWhile p = [] := by
  cases t with
  | nil => rfl
  | cons c r => simp [List.takeWhile_cons, h c rfl]

theorem getLastq_cons_ne {c : Char} {l : List Char} (h : l ≠ []) :
    (c :: l).getLast? = l.getLast? := by
  cases l with
  | nil => exact absurd rfl h
  | cons d t => exact List.getLast?_cons_cons

theorem getLastq_append_right {a b : List Char} (h : b ≠ []) :
    (a ++ b).getLast? = b.getLast? := by
  induction a with
  | nil => rfl
  | cons c a ih =>
    rw [List.cons_append, getLastq_cons_ne (fun hh => h (List.append_eq_nil.mp hh).2), ih]

theorem getLastq_mem {l : List Char} {c : Char} (h : l.getLast? = some c) : c ∈ l := by
  induction l with
  | nil => simp at h
  | cons a l ih =>
    cases hl : l with
    | nil => subst hl; simp at h; simp [h]
    | cons b t =>
      subst hl
      rw [List.getLast?_cons_cons] at h
      exact List.mem_cons_of_mem _ (ih h)

/-! ## Combinator facts -/

theorem expectStr_self (k t : List Char) : expectStr k (k ++ t) = some t := by
  induction k with
  | nil => rfl
  | cons c k ih => simp [expectStr, ih]

theorem expectStr_eq {k s t : List Char} (h : expectStr k s = some t) : s = k ++ t := by
  induction k generalizing s with
  | nil => rw [List.nil_append]; exact Option.some_inj.mp h
  | cons c k ih =>
    cases s with
    | nil => simp [expectStr] at h
    | cons d s =>
      rw [expectStr] at h
      split at h
      · next heq => subst heq; rw [ih h, List.cons_append]
      · exact absurd h (by simp)

theorem expectStr_head_ne {c k : Char} {ks s : List Char} (h : c ≠ k) :
    expectStr (k :: ks) (c :: s) = none := by
  simp [expectStr, h]

theorem wsPlus_eq {s t : List Char} (h : wsPlus s = some t) :
    ∃ w, s = w ++ t ∧ WsList w ∧ w ≠ [] := by
  cases s with
  | nil => simp [wsPlus] at h
  | cons c r =>
    rw [wsPlus] at h
    split at h
    · next hc =>
      refine ⟨c :: r.takeWhile isWsChar, ?_, ?_, by simp⟩
      · simp only [Option.some_inj] at h
        rw [List.cons_append, ← h, List.takeWhile_append_dropWhile]
      · intro d hd
        rcases List.mem_cons.mp hd with rfl | hd
        · exact hc
        · exact List.mem_takeWhile_imp hd
    · exact absurd h (by simp)

theorem wsPlus_of {w t : List Char} (hw : WsList w) (hne : w ≠ [])
    (ht : ∀ d, t.head? = some d → isWsChar d = false) : wsPlus (w ++ t) = some t := by
  cases w with
  | nil => exact absurd rfl hne
  | cons c r =>
    rw [List.cons_append, wsPlus, if_pos (hw c (by simp))]
    rw [dropWhile_append_all t fun d hd => hw d (by simp [hd]), dropWhile_head_false ht]

theorem expectChar_eq {k : Char} {s t : List Char} (h : expectChar k s = some t) :
    s = k :: t := by
  cases s with
  | nil => simp [expectChar] at h
  | cons c r =>
    rw [expectChar] at h
    split at h
    · next hc => subst hc; simpa using h
    · exact absurd h (by simp)

theorem expectChar_self (k : Char) (t : List Char) : expectChar k (k :: t) = some t := by
  simp [expectChar]

theorem captureWhile_eq {f g : Char → Bool} {s nm s' : List Char}
    (h : captureWhile f g s = some (nm, s')) :
    s = nm ++ s' ∧ ∃ c t, nm = c :: t ∧ f c = true ∧ (∀ x ∈ t, g x = true) := by
  cases s with
  | nil => simp [captureWhile] at h
  | cons c r =>
    rw [captureWhile] at h
    split at h
    · next hc =>
      simp only [Option.some_inj, Prod.mk.injEq] at h
      obtain ⟨hnm, hs'⟩ := h
      refine ⟨?_, c, r.takeWhile g, hnm.symm, hc, fun x hx => List.mem_takeWhile_imp hx⟩
      rw [← hnm, ← hs', List.cons_append, List.takeWhile_append_dropWhile]
    · exact absurd h (by simp)

theorem captureWhile_of {f g : Char → Bool} {c : Char} {xs t : List Char}
    (hc : f c = true) (hxs : ∀ x ∈ xs, g x = true)
    (ht : ∀ d, t.head? = some d → g d = false) :
    captureWhile f g (c :: (xs ++ t)) = some (c :: xs, t) := by
  rw [captureWhile, if_pos hc, takeWhile_append_all t hxs, takeWhile_head_false ht,
    dropWhile_append_all t hxs, dropWhile_head_false ht, List.append_nil]

theorem skipWs_append_ws {w : List Char} (t : List Char) (hw : WsList w) :
    skipWs (w ++ t) = skipWs t :=
  dropWhile_append_all t hw

theorem skipWs_cons_not_ws {c : Char} {t : List Char} (hc : isWsChar c = false) :
    skipWs (c :: t) = c :: t := by
  simp [skipWs, List.dropWhile_cons, hc]

theorem skipWs_split (l : List Char) : l = l.takeWhile isWsChar ++ skipWs l := by
  rw [skipWs, List.takeWhile_append_dropWhile]

/-! ## Raw decompositions and assemblies of the matchers -/

theorem matchFun1_inv {s : List Char} {n : String} {r : List Char}
    (h : matchFun1 s = some (n, r)) :
    ∃ s1 s2 nm s3, expectStr fdata (skipWs s) = some s1 ∧ wsPlus s1 = some s2 ∧
      captureWhile isIdentStart isIdentChar s2 = some (nm, s3) ∧
      expectChar '(' (skipWs s3) = some r ∧ n = String.mk nm := by
  simp only [matchFun1, Option.bind_eq_bind, Option.bind_eq_some, Option.pure_def,
    Option.some.injEq, Prod.mk.injEq] at h
  obtain ⟨s1, h1, s2, h2, ⟨nm, s3⟩, h3, r', h4, hn, hr⟩ := h
  exact ⟨s1, s2, nm, s3, h1, h2, h3, hr ▸ h4, hn.symm⟩

theorem matchFun1_mk {s s1 s2 nm s3 r : List Char}
    (h1 : expectStr fdata (skipWs s) = some s1) (h2 : wsPlus s1 = some s2)
    (h3 : captureWhile isIdentStart isIdentChar s2 = some (nm, s3))
    (h4 : expectChar '(' (skipWs s3) = some r) :
    matchFun1 s = some (String.mk nm, r) := by
  simp [matchFun1, h1, h2, h3, h4]

theorem matchFun2_inv {s : List Char} {n : String} {r : List Char}
    (h : matchFun2 s = some (n, r)) :
    ∃ s1 s2 nm s3 s4 s5, expectStr fdata (skipWs s) = some s1 ∧ wsPlus s1 = some s2 ∧
      captureWhile isIdentStart isIdentChar s2 = some (nm, s3) ∧
      expectChar '(' (skipWs s3) = some s4 ∧
      expectChar ')' (s4.dropWhile (fun c => !(decide (c = ')')))) = some s5 ∧
      expectChar ':' (skipWs s5) = some r ∧ n = String.mk nm := by
  simp only [matchFun2, Option.bind_eq_bind, Option.bind_eq_some, Option.pure_def,
    Option.some.injEq, Prod.mk.injEq] at h
  obtain ⟨s1, h1, s2, h2, ⟨nm, s3⟩, h3, s4, h4, s5, h5, r', h6, hn, hr⟩ := h
  exact ⟨s1, s2, nm, s3, s4, s5, h1, h2, h3, h4, h5, hr ▸ h6, hn.symm⟩

theorem matchMeth_inv_raw {s : List Char} {n : String} {r : List Char}
    (h : matchMeth s = some (n, r)) :
    ∃ s0 s1 s2 nm s3, dropStatic (skipWs (dropVis (skipWs s))) = some s0 ∧
      expectStr fdata s0 = some s1 ∧ wsPlus s1 = some s2 ∧
      captureWhile isIdentStart isIdentChar s2 = some (nm, s3) ∧
      expectChar '(' (skipWs s3) = some r ∧ n = String.mk nm := by
  simp only [matchMeth, Option.bind_eq_bind, Option.bind_eq_some, Option.pure_def,
    Option.some.injEq, Prod.mk.injEq] at h
  obtain ⟨s0, h0, s1, h1, s2, h2, ⟨nm, s3⟩, h3, r', h4, hn, hr⟩ := h
  exact ⟨s0, s1, s2, nm, s3, h0, h1, h2, h3, hr ▸ h4, hn.symm⟩

theorem matchMeth_mk {s s0 s1 s2 nm s3 r : List Char}
    (h0 : dropStatic (skipWs (dropVis (skipWs s))) = some s0)
    (h1 : expectStr fdata s0 = some s1) (h2 : wsPlus s1 = some s2)
    (h3 : captureWhile isIdentStart isIdentChar s2 = some (nm, s3))
    (h4 : expectChar '(' (skipWs s3) = some r) :
    matchMeth s = some (String.mk nm, r) := by
  simp [matchMeth, h0, h1, h2, h3, h4]

/-! ## Facts about the optional-group scanners -/

theorem dropVis_head {c : Char} {t : List Char} (h : c ≠ 'p') : dropVis (c :: t) = c :: t := by
  simp [dropVis, pubData, protData, privData, expectStr_head_ne h]

theorem dropStatic_head {c : Char} {t : List Char} (h : c ≠ 's') :
    dropStatic (c :: t) = some (c :: t) := by
  simp [dropStatic, statData, expectStr_head_ne h]

theorem dropVis_eq (s : List Char) :
    ∃ v, (v = [] ∨ v = pubData ∨ v = protData ∨ v = privData) ∧ s = v ++ dropVis s := by
  rw [dropVis]
  cases hp : expectStr pubData s with
  | some r => exact ⟨pubData, by simp, expectStr_eq hp⟩
  | none =>
    cases hq : expectStr protData s with
    | some r => exact ⟨protData, by simp, expectStr_eq hq⟩
    | none =>
      cases hv : expectStr privData s with
      | some r => exact ⟨privData, by simp, expectStr_eq hv⟩
      | none => exact ⟨[], by simp, by simp⟩

theorem dropStatic_eq {s t : List Char} (h : dropStatic s = some t) :
    ∃ st, (st = [] ∨ ∃ wst, st = statData ++ wst ∧ WsList wst ∧ wst ≠ []) ∧
      s = st ++ t := by
  rw [dropStatic] at h
  cases hp : expectStr statData s with
  | some r =>
    rw [hp] at h
    obtain ⟨w, hw, hws, hne⟩ := wsPlus_eq h
    refine ⟨statData ++ w, Or.inr ⟨w, rfl, hws, hne⟩, ?_⟩
    rw [expectStr_eq hp, hw, List.append_assoc]
  | none =>
    rw [hp] at h
    exact ⟨[], Or.inl rfl, by rw [List.nil_append]; exact Option.some_inj.mp h⟩

/-- Pointwise: wherever the plain function pattern matches, the method pattern
(with both optional groups empty) matches with the same capture and end. -/
theorem matchFun1_to_matchMeth {s : List Char} {n : String} {r : List Char}
    (h : matchFun1 s = some (n, r)) : matchMeth s = some (n, r) := by
  obtain ⟨s1, s2, nm, s3, h1, h2, h3, h4, hn⟩ := matchFun1_inv h
  have hs : skipWs s = fdata ++ s1 := expectStr_eq h1
  have e1 : dropVis (fdata ++ s1) = fdata ++ s1 := by
    simp only [fdata, List.cons_append]
    exact dropVis_head (by decide)
  have e2 : skipWs (fdata ++ s1) = fdata ++ s1 := by
    simp only [fdata, List.cons_append]
    exact skipWs_cons_not_ws (by decide)
  have e3 : dropStatic (fdata ++ s1) = some (fdata ++ s1) := by
    simp only [fdata, List.cons_append]
    exact dropStatic_head (by decide)
  have h0 : dropStatic (skipWs (dropVis (skipWs s))) = some (fdata ++ s1) := by
    rw [hs, e1, e2, e3]
  subst hn
  exact matchMeth_mk h0 (expectStr_self _ _) h2 h3 h4

/-- Pointwise: wherever the return-type function pattern matches, the plain
function pattern matches with the same capture (its prefix). -/
theorem matchFun2_to_matchFun1 {s : List Char} {n : String} {r : List Char}
    (h : matchFun2 s = some (n, r)) : ∃ r', matchFun1 s = some (n, r') := by
  obtain ⟨s1, s2, nm, s3, s4, s5, h1, h2, h3, h4, _, _, hn⟩ := matchFun2_inv h
  exact ⟨s4, hn ▸ matchFun1_mk h1 h2 h3 h4⟩

theorem fdata_ident : ∀ c ∈ fdata, isIdentChar c = true := by decide

/-- Full structural decomposition of a successful method-pattern match: the
consumed text is whitespace, an optional visibility keyword, whitespace, an
optional `static` with trailing whitespace, the keyword `function`, mandatory
whitespace, the captured identifier, optional whitespace, and `(`. -/
theorem matchMeth_parse {s : List Char} {n : String} {restM : List Char}
    (h : matchMeth s = some (n, restM)) :
    ∃ w0 v w1 st w2 nm w3,
      s = w0 ++ (v ++ (w1 ++ (st ++ (fdata ++ (w2 ++ (nm ++ (w3 ++ '(' :: restM))))))) ∧
      WsList w0 ∧ (v = [] ∨ v = pubData ∨ v = protData ∨ v = privData) ∧ WsList w1 ∧
      (st = [] ∨ ∃ wst, st = statData ++ wst ∧ WsList wst ∧ wst ≠ []) ∧
      WsList w2 ∧ w2 ≠ [] ∧
      (∃ c t, nm = c :: t ∧ isIdentStart c = true) ∧ IdentList nm ∧ WsList w3 ∧
      n = String.mk nm := by
  obtain ⟨s0, s1, s2, nm, s3, h0, h1, h2, h3, h4, hn⟩ := matchMeth_inv_raw h
  obtain ⟨v, hv, hvis⟩ := dropVis_eq (skipWs s)
  obtain ⟨st, hst, hstEq⟩ := dropStatic_eq h0
  have hs1 : s0 = fdata ++ s1 := expectStr_eq h1
  obtain ⟨w2, hw2eq, hw2ws, hw2ne⟩ := wsPlus_eq h2
  obtain ⟨hcapEq, c, t, hnm, hcs, hts⟩ := captureWhile_eq h3
  have hpar : skipWs s3 = '(' :: restM := expectChar_eq h4
  have step0 := skipWs_split s
  have stepB := skipWs_split (dropVis (skipWs s))
  have stepS3 := skipWs_split s3
  refine ⟨s.takeWhile isWsChar, v, (dropVis (skipWs s)).takeWhile isWsChar, st, w2, nm,
    s3.takeWhile isWsChar, ?_, ?_, hv, ?_, hst, hw2ws, hw2ne, ⟨c, t, hnm, hcs⟩, ?_, ?_, hn⟩
  · conv_lhs => rw [step0, hvis, stepB, hstEq, hs1, hw2eq, hcapEq, stepS3, hpar]
  · exact fun d hd => List.mem_takeWhile_imp hd
  · exact fun d hd => List.mem_takeWhile_imp hd
  · intro x hx
    rw [hnm] at hx
    rcases List.mem_cons.mp hx with rfl | hx
    · exact identStart_identChar hcs
    · exact hts x hx
  · exact fun d hd => List.mem_takeWhile_imp hd

/-- Evaluating the plain function pattern at the `function` keyword of a
decomposed method match: it succeeds and captures the same identifier, ending
at the same `(`. -/
theorem matchFun1_at_fun {w2 nm w3 rest : List Char} (hw2 : WsList w2) (h2ne : w2 ≠ [])
    (hnmh : ∃ c t, nm = c :: t ∧ isIdentStart c = true) (hnmI : IdentList nm)
    (hw3 : WsList w3) :
    matchFun1 (fdata ++ (w2 ++ (nm ++ (w3 ++ '(' :: rest)))) = some (String.mk nm, rest) := by
  obtain ⟨c, t, rfl, hc⟩ := hnmh
  have hparHead : ∀ d : Char, (w3 ++ '(' :: rest).head? = some d → isIdentChar d = false := by
    intro d hd
    cases w3 with
    | nil =>
      simp only [List.nil_append, List.head?_cons, Option.some_inj] at hd
      subst hd; decide
    | cons e w3' =>
      simp only [List.cons_append, List.head?_cons, Option.some_inj] at hd
      subst hd
      exact ws_not_identChar (hw3 e (by simp))
  have e0 : skipWs (fdata ++ (w2 ++ ((c :: t) ++ (w3 ++ '(' :: rest)))) =
      fdata ++ (w2 ++ ((c :: t) ++ (w3 ++ '(' :: rest))) := by
    simp only [fdata, List.cons_append]
    exact skipWs_cons_not_ws (by decide)
  have h1 : expectStr fdata (skipWs (fdata ++ (w2 ++ ((c :: t) ++ (w3 ++ '(' :: rest))))) =
      some (w2 ++ ((c :: t) ++ (w3 ++ '(' :: rest))) := by
    rw [e0]; exact expectStr_self _ _
  have h2 : wsPlus (w2 ++ ((c :: t) ++ (w3 ++ '(' :: rest))) =
      some ((c :: t) ++ (w3 ++ '(' :: rest)) := by
    refine wsPlus_of hw2 h2ne ?_
    intro d hd
    simp only [List.cons_append, List.head?_cons, Option.some_inj] at hd
    subst hd
    exact identStart_not_ws hc
  have h3 : captureWhile isIdentStart isIdentChar ((c :: t) ++ (w3 ++ '(' :: rest)) =
      some (c :: t, w3 ++ '(' :: rest) := by
    rw [List.cons_append]
    exact captureWhile_of hc (fun x hx => hnmI x (by simp [hx])) hparHead
  have h4 : expectChar '(' (skipWs (w3 ++ '(' :: rest)) = some rest := by
    rw [skipWs_append_ws _ hw3, skipWs_cons_not_ws (by decide)]
    exact expectChar_self _ _
  exact matchFun1_mk h1 h2 h3 h4

/-- The plain function pattern cannot match at a position whose first
character is neither whitespace nor `f`. -/
theorem matchFun1_head_contra {c : Char} {t : List Char} {x : String × List Char}
    (hws : isWsChar c = false) (hc : c ≠ 'f') (h : matchFun1 (c :: t) = some x) : False := by
  obtain ⟨n, r⟩ := x
  obtain ⟨s1, _, _, _, h1, _, _, _, _⟩ := matchFun1_inv h
  rw [skipWs_cons_not_ws hws] at h1
  have := expectStr_eq h1
  simp only [fdata, List.cons_append, List.cons.injEq] at this
  exact hc this.1

/-- After whitespace the input continues with `(`: the mandatory `\s+` /
identifier part of the function pattern cannot proceed. -/
theorem wsParen_capture_contra {w3 rest s2 : List Char} {x : List Char × List Char}
    (hw3 : WsList w3) (h2 : wsPlus (w3 ++ '(' :: rest) = some s2)
    (h3 : captureWhile isIdentStart isIdentChar s2 = some x) : False := by
  obtain ⟨nm, s3⟩ := x
  obtain ⟨w, hw, hws, hwne⟩ := wsPlus_eq h2
  obtain ⟨hs2, cc, tt, hnm, hccs, _⟩ := captureWhile_eq h3
  have hs2head : s2 = cc :: (tt ++ s3) := by rw [hs2, hnm, List.cons_append]
  rcases List.append_eq_append_iff.mp hw with ⟨a, ha, hb⟩ | ⟨a, ha, hb⟩
  · -- hb : '(' :: rest = a ++ s2 with a a suffix of the whitespace run w
    cases a with
    | nil =>
      rw [List.nil_append, hs2head] at hb
      have hcc : cc = '(' := by
        simp only [List.cons.injEq] at hb
        exact hb.1.symm
      rw [hcc] at hccs
      exact absurd hccs (by decide)
    | cons d a' =>
      have hdw : isWsChar d = true := hws d (by rw [ha]; simp)
      have hd : d = '(' := by
        simp only [List.cons_append, List.cons.injEq] at hb
        exact hb.1.symm
      rw [hd] at hdw
      exact absurd hdw (by decide)
  · -- ha : w3 = w ++ a, hb : s2 = a ++ '(' :: rest with a a suffix of w3
    cases a with
    | nil =>
      rw [List.nil_append, hs2head] at hb
      have hcc : cc = '(' := by
        simp only [List.cons.injEq] at hb
        exact hb.1
      rw [hcc] at hccs
      exact absurd hccs (by decide)
    | cons d a' =>
      have hdw : isWsChar d = true := hw3 d (by rw [ha]; simp)
      have hcd : cc = d := by
        rw [hs2head, List.cons_append] at hb
        simp only [List.cons.injEq] at hb
        exact hb.1
      rw [hcd, ws_not_identStart hdw] at hccs
      exact absurd hccs (by simp)

/-- The plain function pattern cannot match at the start of the captured
identifier of a method match (the identifier block followed by whitespace and
`(`). -/
theorem matchFun1_identBlock_contra {nm w3 rest : List Char} {x : String × List Char}
    (hne : nm ≠ []) (hnmI : IdentList nm) (hw3 : WsList w3)
    (h : matchFun1 (nm ++ (w3 ++ '(' :: rest)) = some x) : False := by
  obtain ⟨n, r⟩ := x
  obtain ⟨s1, s2, nm', s3, h1, h2, h3, _, _⟩ := matchFun1_inv h
  cases nm with
  | nil => exact absurd rfl hne
  | cons c t =>
  have hcw : isWsChar c = false := identChar_not_ws (hnmI c (by simp))
  rw [List.cons_append, skipWs_cons_not_ws hcw, ← List.cons_append] at h1
  have heq : (c :: t) ++ (w3 ++ '(' :: rest) = fdata ++ s1 := expectStr_eq h1
  rcases List.append_eq_append_iff.mp heq with ⟨a, ha, hb⟩ | ⟨a, ha, hb⟩
  · cases a with
    | nil =>
      rw [List.nil_append] at hb
      exact wsParen_capture_contra hw3 (hb ▸ h2) h3
    | cons d a' =>
      have hdId : isIdentChar d = true := fdata_ident d (by rw [ha]; simp)
      cases w3 with
      | nil =>
        have : d = '(' := by
          simp only [List.nil_append, List.cons_append, List.cons.injEq] at hb
          exact hb.1.symm
        rw [this] at hdId
        exact absurd hdId (by decide)
      | cons e w3' =>
        have : d = e := by
          simp only [List.cons_append, List.cons.injEq] at hb
          exact hb.1.symm
        rw [this] at hdId
        rw [ws_not_identChar (hw3 e (by simp))] at hdId
        exact absurd hdId (by simp)
  · cases a with
    | nil =>
      rw [List.append_nil] at ha
      rw [List.nil_append] at hb
      exact wsParen_capture_contra hw3 (hb ▸ h2) h3
    | cons d a' =>
      have hdId : isIdentChar d = true := hnmI d (by rw [ha]; simp)
      obtain ⟨w, hw, hws, hwne⟩ := wsPlus_eq h2
      rw [hb] at hw
      cases w with
      | nil => exact absurd rfl hwne
      | cons e w' =>
        have : d = e := by
          simp only [List.cons_append, List.cons.injEq] at hw
          exact hw.1
        rw [this] at hdId
        rw [ws_not_identChar (hws e (by simp))] at hdId
        exact absurd hdId (by simp)

theorem WsList_append {a b : List Char} (ha : WsList a) (hb : WsList b) :
    WsList (a ++ b) := by
  intro c hc
  rcases List.mem_append.mp hc with h | h
  · exact ha c h
  · exact hb c h

theorem matchFun1_ws_absorb {w : List Char} (t : List Char) (hw : WsList w) :
    matchFun1 (w ++ t) = matchFun1 t := by
  simp only [matchFun1, skipWs_append_ws t hw]

theorem pubData_facts : ∀ x ∈ pubData, x ≠ 'f' ∧ isWsChar x = false := by decide

theorem protData_facts : ∀ x ∈ protData, x ≠ 'f' ∧ isWsChar x = false := by decide

theorem privData_facts : ∀ x ∈ privData, x ≠ 'f' ∧ isWsChar x = false := by decide

theorem statData_facts : ∀ x ∈ statData, x ≠ 'f' ∧ isWsChar x = false := by decide

theorem fdataTail_facts : ∀ x ∈ fdata.tail, x ≠ 'f' ∧ isWsChar x = false := by decide

/-- Core covering property: wherever the plain function pattern matches
strictly inside the span of a method-pattern match (before its final `(`), it
can only capture the same identifier.  (In fact this holds at *every* suffix
of the span: any suffix that does not land exactly on the `function` keyword
fails to match at all, because each strict suffix of the keywords `public`,
`protected`, `private`, `static`, `function` starts with a letter that is
neither `f` nor whitespace.) -/
theorem covered_same_name {s : List Char} {n : String} {restM : List Char}
    (hM : matchMeth s = some (n, restM))
    {u t : List Char} (hs : s = u ++ t) (hlen : restM.length < t.length)
    {m : String} {r : List Char} (hF : matchFun1 t = some (m, r)) : m = n := by
  obtain ⟨w0, v, w1, st, w2, nm, w3, hdec, hw0, hv, hw1, hst, hw2ws, hw2ne, hnmh, hnmI,
    hw3, hn⟩ := matchMeth_parse hM
  subst hn
  -- landing evaluations, innermost first
  have hPos : matchFun1 (fdata ++ (w2 ++ (nm ++ (w3 ++ '(' :: restM)))) =
      some (String.mk nm, restM) := matchFun1_at_fun hw2ws hw2ne hnmh hnmI hw3
  have hnmne : nm ≠ [] := by
    obtain ⟨c, t', hc, _⟩ := hnmh
    simp [hc]
  have hT8 : ∀ {y : String × List Char}, matchFun1 ('(' :: restM) = some y → False := by
    intro y hy
    exact matchFun1_head_contra (by decide) (by decide) hy
  have hT7 : ∀ {y : String × List Char}, matchFun1 (w3 ++ '(' :: restM) = some y → False := by
    intro y hy
    rw [matchFun1_ws_absorb _ hw3] at hy
    exact hT8 hy
  have hT6 : ∀ {y : String × List Char},
      matchFun1 (nm ++ (w3 ++ '(' :: restM)) = some y → False := by
    intro y hy
    exact matchFun1_identBlock_contra hnmne hnmI hw3 hy
  have hT5 : ∀ {y : String × List Char},
      matchFun1 (w2 ++ (nm ++ (w3 ++ '(' :: restM))) = some y → False := by
    intro y hy
    rw [matchFun1_ws_absorb _ hw2ws] at hy
    exact hT6 hy
  have hT4 : ∀ {y : String × List Char},
      matchFun1 (fdata ++ (w2 ++ (nm ++ (w3 ++ '(' :: restM)))) = some y →
      y = (String.mk nm, restM) := by
    intro y hy
    exact Option.some_inj.mp (hy.symm.trans hPos)
  have hT3 : ∀ {y : String × List Char},
      matchFun1 (st ++ (fdata ++ (w2 ++ (nm ++ (w3 ++ '(' :: restM))))) = some y →
      y = (String.mk nm, restM) := by
    rcases hst with rfl | ⟨wst, rfl, hwst, _⟩
    · intro y hy
      rw [List.nil_append] at hy
      exact hT4 hy
    · intro y hy
      rw [List.append_assoc, statData, List.cons_append] at hy
      exact (matchFun1_head_contra (by decide) (by decide) hy).elim
  have hT2 : ∀ {y : String × List Char},
      matchFun1 (w1 ++ (st ++ (fdata ++ (w2 ++ (nm ++ (w3 ++ '(' :: restM)))))) = some y →
      y = (String.mk nm, restM) := by
    intro y hy
    rw [matchFun1_ws_absorb _ hw1] at hy
    exact hT3 hy
  have hT1 : ∀ {y : String × List Char},
      matchFun1 (v ++ (w1 ++ (st ++ (fdata ++ (w2 ++ (nm ++ (w3 ++ '(' :: restM))))))) =
        some y → y = (String.mk nm, restM) := by
    rcases hv with rfl | rfl | rfl | rfl
    · intro y hy
      rw [List.nil_append] at hy
      exact hT2 hy
    · intro y hy
      rw [pubData, List.cons_append] at hy
      exact (matchFun1_head_contra (by decide) (by decide) hy).elim
    · intro y hy
      rw [protData, List.cons_append] at hy
      exact (matchFun1_head_contra (by decide) (by decide) hy).elim
    · intro y hy
      rw [privData, List.cons_append] at hy
      exact (matchFun1_head_contra (by decide) (by decide) hy).elim
  -- now walk the split point through the decomposition
  rw [hdec] at hs
  -- stage 0: w0
  rcases List.append_eq_append_iff.mp hs.symm with ⟨a, hA, hT⟩ | ⟨u1, _, hE1⟩
  · have haws : WsList a := fun c hc => hw0 c (by rw [hA]; simp [hc])
    rw [hT, matchFun1_ws_absorb _ haws] at hF
    exact congrArg Prod.fst (hT1 hF)
  · -- stage 1: v
    rcases List.append_eq_append_iff.mp hE1.symm with ⟨a, hA, hT⟩ | ⟨u2, _, hE2⟩
    · cases a with
      | nil =>
        rw [List.nil_append] at hT
        rw [hT] at hF
        exact congrArg Prod.fst (hT2 hF)
      | cons d a' =>
        have hd : d ∈ v := by rw [hA]; simp
        have hdf : d ≠ 'f' ∧ isWsChar d = false := by
          rcases hv with rfl | rfl | rfl | rfl
          · simp at hd
          · exact pubData_facts d hd
          · exact protData_facts d hd
          · exact privData_facts d hd
        rw [hT, List.cons_append] at hF
        exact (matchFun1_head_contra hdf.2 hdf.1 hF).elim
    · -- stage 2: w1
      rcases List.append_eq_append_iff.mp hE2.symm with ⟨a, hA, hT⟩ | ⟨u3, _, hE3⟩
      · have haws : WsList a := fun c hc => hw1 c (by rw [hA]; simp [hc])
        rw [hT, matchFun1_ws_absorb _ haws] at hF
        exact congrArg Prod.fst (hT3 hF)
      · -- stage 3: st
        rcases hst with rfl | ⟨wst, rfl, hwst, _⟩
        · -- st = []: fall through to the function keyword
          rw [List.nil_append] at hE3
          rcases List.append_eq_append_iff.mp hE3.symm with ⟨a, hA, hT⟩ | ⟨u5, _, hE5⟩
          · cases u3 with
            | nil =>
              rw [List.nil_append] at hA
              rw [hT, ← hA] at hF
              exact congrArg Prod.fst (hT4 hF)
            | cons e u3' =>
              cases a with
              | nil =>
                rw [List.append_nil] at hA
                rw [hT] at hF
                rw [List.nil_append] at hF
                exact (hT5 hF).elim
              | cons d a' =>
                have hd : d ∈ fdata.tail := by
                  rw [hA]
                  simp only [List.cons_append, List.tail_cons]
                  simp
                have hdf : d ≠ 'f' ∧ isWsChar d = false := fdataTail_facts d hd
                rw [hT, List.cons_append] at hF
                exact (matchFun1_head_contra hdf.2 hdf.1 hF).elim
          · -- stage 5: w2
            rcases List.append_eq_append_iff.mp hE5.symm with ⟨a, hA, hT⟩ | ⟨u6, _, hE6⟩
            · have haws : WsList a := fun c hc => hw2ws c (by rw [hA]; simp [hc])
              rw [hT, matchFun1_ws_absorb _ haws] at hF
              exact (hT6 hF).elim
            · -- stage 6: nm
              rcases List.append_eq_append_iff.mp hE6.symm with ⟨a, hA, hT⟩ | ⟨u7, _, hE7⟩
              · cases a with
                | nil =>
                  rw [List.nil_append] at hT
                  rw [hT] at hF
                  exact (hT7 hF).elim
                | cons d a' =>
                  have hsufI : IdentList (d :: a') :=
                    fun x hx => hnmI x (by rw [hA]; simp [hx])
                  rw [hT] at hF
                  exact (matchFun1_identBlock_contra (by simp) hsufI hw3 hF).elim
              · -- stage 7: w3
                rcases List.append_eq_append_iff.mp hE7.symm with ⟨a, hA, hT⟩ | ⟨u8, _, hE8⟩
                · have haws : WsList a := fun c hc => hw3 c (by rw [hA]; simp [hc])
                  rw [hT, matchFun1_ws_absorb _ haws] at hF
                  exact (hT8 hF).elim
                · -- stage 8: the final '('
                  have hE8' : u8 ++ t = ['('] ++ restM := by
                    rw [← hE8]; rfl
                  rcases List.append_eq_append_iff.mp hE8' with ⟨a, hA, hT⟩ | ⟨c', _, hE9⟩
                  · cases a with
                    | nil =>
                      rw [List.nil_append] at hT
                      rw [hT] at hlen
                      exact absurd hlen (lt_irrefl _)
                    | cons d a' =>
                      cases u8 with
                      | nil =>
                        simp only [List.nil_append, List.cons.injEq] at hA
                        obtain ⟨rfl, rfl⟩ := hA
                        rw [hT, List.cons_append, List.nil_append] at hF
                        exact (hT8 hF).elim
                      | cons e u8' =>
                        simp only [List.cons_append, List.cons.injEq] at hA
                        exact absurd hA.2.symm (by simp)
                  · rw [hE9] at hlen
                    simp only [List.length_append] at hlen
                    omega
        · -- st = statData ++ wst
          rw [List.append_assoc] at hE3
          rcases List.append_eq_append_iff.mp hE3.symm with ⟨a, hA, hT⟩ | ⟨u3s, _, hE3b⟩
          · cases a with
            | nil =>
              rw [List.nil_append] at hT
              rw [hT, matchFun1_ws_absorb _ hwst] at hF
              exact congrArg Prod.fst (hT4 hF)
            | cons d a' =>
              have hd : d ∈ statData := by rw [hA]; simp
              have hdf : d ≠ 'f' ∧ isWsChar d = false := statData_facts d hd
              rw [hT, List.cons_append] at hF
              exact (matchFun1_head_contra hdf.2 hdf.1 hF).elim
          · -- stage 3b: wst
            rcases List.append_eq_append_iff.mp hE3b.symm with ⟨a, hA, hT⟩ | ⟨u4, _, hE4⟩
            · have haws : WsList a := fun c hc => hwst c (by rw [hA]; simp [hc])
              rw [hT, matchFun1_ws_absorb _ haws] at hF
              exact congrArg Prod.fst (hT4 hF)
            · -- stage 4: fdata after static
              rcases List.append_eq_append_iff.mp hE4.symm with ⟨a, hA, hT⟩ | ⟨u5, _, hE5⟩
              · cases u4 with
                | nil =>
                  rw [List.nil_append] at hA
                  rw [hT, ← hA] at hF
                  exact congrArg Prod.fst (hT4 hF)
                | cons e u4' =>
                  cases a with
                  | nil =>
                    rw [List.append_nil] at hA
                    rw [hT] at hF
                    rw [List.nil_append] at hF
                    exact (hT5 hF).elim
                  | cons d a' =>
                    have hd : d ∈ fdata.tail := by
                      rw [hA]
                      simp only [List.cons_append, List.tail_cons]
                      simp
                    have hdf : d ≠ 'f' ∧ isWsChar d = false := fdataTail_facts d hd
                    rw [hT, List.cons_append] at hF
                    exact (matchFun1_head_contra hdf.2 hdf.1 hF).elim
              · -- stage 5 after static: w2
                rcases List.append_eq_append_iff.mp hE5.symm with ⟨a, hA, hT⟩ | ⟨u6, _, hE6⟩
                · have haws : WsList a := fun c hc => hw2ws c (by rw [hA]; simp [hc])
                  rw [hT, matchFun1_ws_absorb _ haws] at hF
                  exact (hT6 hF).elim
                · -- stage 6 after static: nm
                  rcases List.append_eq_append_iff.mp hE6.symm with ⟨a, hA, hT⟩ | ⟨u7, _, hE7⟩
                  · cases a with
                    | nil =>
                      rw [List.nil_append] at hT
                      rw [hT] at hF
                      exact (hT7 hF).elim
                    | cons d a' =>
                      have hsufI : IdentList (d :: a') :=
                        fun x hx => hnmI x (by rw [hA]; simp [hx])
                      rw [hT] at hF
                      exact (matchFun1_identBlock_contra (by simp) hsufI hw3 hF).elim
                  · -- stage 7 after static: w3
                    rcases List.append_eq_append_iff.mp hE7.symm with ⟨a, hA, hT⟩ | ⟨u8, _, hE8⟩
                    · have haws : WsList a := fun c hc => hw3 c (by rw [hA]; simp [hc])
                      rw [hT, matchFun1_ws_absorb _ haws] at hF
                      exact (hT8 hF).elim
                    · -- stage 8 after static
                      have hE8' : u8 ++ t = ['('] ++ restM := by
                        rw [← hE8]; rfl
                      rcases List.append_eq_append_iff.mp hE8' with ⟨a, hA, hT⟩ | ⟨c', _, hE9⟩
                      · cases a with
                        | nil =>
                          rw [List.nil_append] at hT
                          rw [hT] at hlen
                          exact absurd hlen (lt_irrefl _)
                        | cons d a' =>
                          cases u8 with
                          | nil =>
                            simp only [List.nil_append, List.cons.injEq] at hA
                            obtain ⟨rfl, rfl⟩ := hA
                            rw [hT, List.cons_append, List.nil_append] at hF
                            exact (hT8 hF).elim
                          | cons e u8' =>
                            simp only [List.cons_append, List.cons.injEq] at hA
                            exact absurd hA.2.symm (by simp)
                      · rw [hE9] at hlen
                        simp only [List.length_append] at hlen
                        omega

/-! ## Scan-level lemmas -/

theorem scanAux_true_some {pat : Matcher} {c : Char} {cs : List Char} {nm : String}
    {rest : List Char} (h : pat (c :: cs) = some (nm, rest)) :
    scanAux pat (c :: cs) true 0 =
      nm :: scanAux pat cs (c == '\n') (cs.length - rest.length) := by
  rw [scanAux, h]

theorem scanAux_true_none {pat : Matcher} {c : Char} {cs : List Char}
    (h : pat (c :: cs) = none) :
    scanAux pat (c :: cs) true 0 = scanAux pat cs (c == '\n') 0 := by
  rw [scanAux, h]

theorem LineStartAt_cons {c : Char} {cs t : List Char} (ls : Bool)
    (h : LineStartAt cs t (c == '\n')) : LineStartAt (c :: cs) t ls := by
  obtain ⟨u, hu, hcase⟩ := h
  rcases hcase with ⟨rfl, hls⟩ | ⟨hne, hlast⟩
  · refine ⟨[c], by simp [hu], Or.inr ⟨by simp, ?_⟩⟩
    simp only [List.getLast?_singleton, Option.some_inj]
    exact (beq_iff_eq.mp hls)
  · exact ⟨c :: u, by simp [hu], Or.inr ⟨by simp, by rw [getLastq_cons_ne hne]; exact hlast⟩⟩

theorem LineStartAt_destruct {c : Char} {cs t : List Char} {ls : Bool}
    (h : LineStartAt (c :: cs) t ls) :
    (t = c :: cs ∧ ls = true) ∨ LineStartAt cs t (c == '\n') := by
  obtain ⟨u, hu, hcase⟩ := h
  cases u with
  | nil =>
    rcases hcase with ⟨_, hls⟩ | ⟨hne, _⟩
    · exact Or.inl ⟨by simpa using hu.symm, hls⟩
    · exact absurd rfl hne
  | cons d u' =>
    simp only [List.cons_append, List.cons.injEq] at hu
    obtain ⟨rfl, hcs⟩ := hu
    rcases hcase with ⟨h0, _⟩ | ⟨_, hlast⟩
    · exact absurd h0 (by simp)
    · cases u' with
      | nil =>
        refine Or.inr ⟨[], by simpa using hcs, Or.inl ⟨rfl, ?_⟩⟩
        simp only [List.getLast?_singleton, Option.some_inj] at hlast
        simp [hlast]
      | cons e u'' =>
        refine Or.inr ⟨e :: u'', hcs, Or.inr ⟨by simp, ?_⟩⟩
        rw [getLastq_cons_ne (by simp)] at hlast
        exact hlast

theorem matchFun1_nil : matchFun1 [] = none := by decide

/-- Soundness of the finditer scan: every reported name comes from a match of
the pattern at a line-start suffix. -/
theorem scanAux_sound {pat : Matcher} :
    ∀ {s : List Char} {ls : Bool} {k : Nat} {n : String},
      n ∈ scanAux pat s ls k → ∃ t, LineStartAt s t ls ∧ MatchesName pat t n := by
  intro s
  induction s with
  | nil => intro ls k n h; rw [scanAux] at h; exact absurd h (by simp)
  | cons c cs ih =>
    intro ls k n h
    match k, ls with
    | Nat.succ k', _ =>
      rw [scanAux] at h
      obtain ⟨t, hLS, hm⟩ := ih h
      exact ⟨t, LineStartAt_cons _ hLS, hm⟩
    | 0, false =>
      rw [scanAux] at h
      obtain ⟨t, hLS, hm⟩ := ih h
      exact ⟨t, LineStartAt_cons _ hLS, hm⟩
    | 0, true =>
      cases hpat : pat (c :: cs) with
      | some x =>
        obtain ⟨nm, rest⟩ := x
        rw [scanAux_true_some hpat] at h
        rcases List.mem_cons.mp h with rfl | h
        · exact ⟨c :: cs, ⟨[], rfl, Or.inl ⟨rfl, rfl⟩⟩, rest, hpat⟩
        · obtain ⟨t, hLS, hm⟩ := ih h
          exact ⟨t, LineStartAt_cons _ hLS, hm⟩
      | none =>
        rw [scanAux_true_none hpat] at h
        obtain ⟨t, hLS, hm⟩ := ih h
        exact ⟨t, LineStartAt_cons _ hLS, hm⟩

/-- Covering property of the method-pattern scan: any line-start suffix beyond
the current skip region where `P` (a pattern whose matches are also plain
function-pattern matches) captures `n` contributes `n` to the method scan's
output — either because the method scan matches there too (with the same
name), or because the suffix lies inside an earlier method match that captured
the same name. -/
theorem scan_covers {P : Matcher}
    (HP : ∀ {t : List Char} {nn : String}, MatchesName P t nn → MatchesName matchFun1 t nn) :
    ∀ {s : List Char} {ls : Bool} {k : Nat} {t : List Char} {n : String},
      LineStartAt s t ls → k ≤ s.length - t.length → MatchesName P t n →
      n ∈ scanAux matchMeth s ls k := by
  intro s
  induction s with
  | nil =>
    intro ls k t n hLS _ hm
    obtain ⟨u, hu, _⟩ := hLS
    obtain ⟨rfl, rfl⟩ := List.append_eq_nil.mp hu.symm
    obtain ⟨r, hr⟩ := HP hm
    rw [matchFun1_nil] at hr
    exact absurd hr (by simp)
  | cons c cs ih =>
    intro ls k t n hLS hk hm
    cases k with
    | succ k' =>
      rcases LineStartAt_destruct hLS with ⟨rfl, _⟩ | hLS'
      · rw [Nat.sub_self] at hk
        exact absurd hk (by simp)
      · have htle : t.length ≤ cs.length := by
          obtain ⟨u', hu', _⟩ := hLS'
          rw [hu']
          simp
        rw [scanAux]
        refine ih hLS' ?_ hm
        simp only [List.length_cons] at hk
        omega
    | zero =>
      cases ls with
      | false =>
        rcases LineStartAt_destruct hLS with ⟨_, hct⟩ | hLS'
        · exact absurd hct (by simp)
        · rw [scanAux]
          exact ih hLS' (by simp) hm
      | true =>
        cases hmm : matchMeth (c :: cs) with
        | some y =>
          obtain ⟨mname, restM⟩ := y
          rw [scanAux_true_some hmm]
          rcases LineStartAt_destruct hLS with ⟨rfl, _⟩ | hLS'
          · obtain ⟨r', hr'⟩ := HP hm
            have hthis := matchFun1_to_matchMeth hr'
            rw [hmm] at hthis
            simp only [Option.some_inj, Prod.mk.injEq] at hthis
            rw [hthis.1]
            exact List.mem_cons_self _ _
          · by_cases hcmp : restM.length < t.length
            · obtain ⟨r', hr'⟩ := HP hm
              obtain ⟨u', hu', _⟩ := hLS'
              have hn := covered_same_name hmm (u := c :: u') (t := t)
                (by rw [List.cons_append, hu']) hcmp hr'
              rw [hn]
              exact List.mem_cons_self _ _
            · refine List.mem_cons_of_mem _ (ih hLS' ?_ hm)
              exact Nat.sub_le_sub_left (Nat.le_of_not_lt hcmp) _
        | none =>
          rcases LineStartAt_destruct hLS with ⟨rfl, _⟩ | hLS'
          · obtain ⟨r', hr'⟩ := HP hm
            have hthis := matchFun1_to_matchMeth hr'
            rw [hmm] at hthis
            exact absurd hthis (by simp)
          · rw [scanAux_true_none hmm]
            exact ih hLS' (by simp) hm

/-- Per-content subset: every name the function patterns report is reported by
the method pattern's scan as well. -/
theorem scanNames_fun1_subset (content : String) {n : String}
    (h : n ∈ scanNames matchFun1 content) : n ∈ scanNames matchMeth content := by
  obtain ⟨t, hLS, hm⟩ := scanAux_sound h
  exact scan_covers (fun hx => hx) hLS (by simp) hm

theorem scanNames_fun2_subset (content : String) {n : String}
    (h : n ∈ scanNames matchFun2 content) : n ∈ scanNames matchMeth content := by
  obtain ⟨t, hLS, hm⟩ := scanAux_sound h
  refine scan_covers ?_ hLS (by simp) hm
  intro t' nn hx
  obtain ⟨r, hr⟩ := hx
  exact matchFun2_to_matchFun1 hr

/-! ## Aggregate-level lemmas -/

theorem addNames_eq (s : Finset String) (l : List String) :
    addNames s l = s ∪ l.toFinset := by
  induction l generalizing s with
  | nil => simp [addNames]
  | cons a l ih =>
    rw [addNames, List.foldl_cons]
    have hstep := ih (insert a s)
    rw [addNames] at hstep
    rw [hstep]
    ext x
    simp only [Finset.mem_union, Finset.mem_insert, List.toFinset_cons]
    tauto

theorem extractFromFile_none (agg : Aggregate) :
    extractFromFile agg none = (agg, true) := rfl

theorem extractFromFile_functions (agg : Aggregate) (text : String) :
    (extractFromFile agg (some text)).1.functions =
      agg.functions ∪ ((scanNames matchFun1 text).filter isValidFunctionName).toFinset
        ∪ ((scanNames matchFun2 text).filter isValidFunctionName).toFinset := by
  simp [extractFromFile, FUNCTION_PATTERNS, addNames_eq, Finset.union_assoc]

theorem extractFromFile_classes (agg : Aggregate) (text : String) :
    (extractFromFile agg (some text)).1.classes =
      agg.classes ∪ (scanNames matchClass1 text).toFinset
        ∪ (scanNames matchClass2 text).toFinset
        ∪ (scanNames matchClass3 text).toFinset := by
  simp [extractFromFile, CLASS_PATTERNS, addNames_eq, Finset.union_assoc]

theorem extractFromFile_methods (agg : Aggregate) (text : String) :
    (extractFromFile agg (some text)).1.methods =
      agg.methods ∪ ((scanNames matchMeth text).filter isValidFunctionName).toFinset := by
  simp [extractFromFile, METHOD_PATTERNS, addNames_eq]

theorem extractFromFile_constants (agg : Aggregate) (text : String) :
    (extractFromFile agg (some text)).1.constants =
      agg.constants ∪ (scanNames matchConst1 text).toFinset
        ∪ (scanNames matchConst2 text).toFinset := by
  simp [extractFromFile, CONSTANT_PATTERNS, addNames_eq, Finset.union_assoc]

/-- One extraction step preserves `functions ⊆ methods` — the two function
patterns only ever report names the method pattern reports, and the same
keyword filter guards both categories. -/
theorem extractFromFile_funs_subset {agg : Aggregate} (content : Option String)
    (h : agg.functions ⊆ agg.methods) :
    (extractFromFile agg content).1.functions ⊆ (extractFromFile agg content).1.methods := by
  cases content with
  | none => simpa [extractFromFile_none] using h
  | some text =>
    rw [extractFromFile_functions, extractFromFile_methods]
    intro x hx
    simp only [Finset.mem_union, List.mem_toFinset, List.mem_filter] at hx ⊢
    rcases hx with (hf | ⟨hm, hv⟩) | ⟨hm, hv⟩
    · exact Or.inl (h hf)
    · exact Or.inr ⟨scanNames_fun1_subset text hm, hv⟩
    · exact Or.inr ⟨scanNames_fun2_subset text hm, hv⟩

theorem processFile_funs_subset {st : Aggregate × Nat} (f : PHPFile)
    (h : st.1.functions ⊆ st.1.methods) :
    (processFile st f).1.functions ⊆ (processFile st f).1.methods := by
  rw [processFile]
  split
  · exact h
  · split
    · exact h
    · exact extractFromFile_funs_subset f.content h

theorem foldl_funs_subset (files : List PHPFile) :
    ∀ st : Aggregate × Nat, st.1.functions ⊆ st.1.methods →
      (files.foldl processFile st).1.functions ⊆ (files.foldl processFile st).1.methods := by
  induction files with
  | nil => intro st h; simpa using h
  | cons f fs ih =>
    intro st h
    rw [List.foldl_cons]
    exact ih _ (processFile_funs_subset f h)

/-- The aggregate invariant of the whole run. -/
theorem extractAllAgg_funs_subset (files : List PHPFile) :
    (extractAllAgg files).functions ⊆ (extractAllAgg files).methods := by
  rw [extractAllAgg, extractAllState]
  exact foldl_funs_subset files _ (by simp [emptyAggregate])

theorem extractFromFile_snd (agg : Aggregate) (c : Option String) :
    (extractFromFile agg c).2 = c.isNone := by
  cases c <;> rfl

theorem processFile_eq (st : Aggregate × Nat) (f : PHPFile) :
    processFile st f = if shouldSkip f.parts then st
      else ((extractFromFile st.1 f.content).1,
            st.2 + (if (extractFromFile st.1 f.content).2 then 1 else 0)) := by
  rw [processFile]
  split
  · rfl
  · rfl

/-- Two extraction steps commute on the aggregate: each step only unions in
per-content name sets. -/
theorem extractFromFile_fst_comm (agg : Aggregate) (cf cg : Option String) :
    (extractFromFile (extractFromFile agg cf).1 cg).1 =
      (extractFromFile (extractFromFile agg cg).1 cf).1 := by
  cases cf with
  | none => rfl
  | some tf =>
    cases cg with
    | none => rfl
    | some tg =>
      ext x
      · rw [extractFromFile_functions, extractFromFile_functions,
          extractFromFile_functions, extractFromFile_functions]
        simp only [Finset.mem_union]
        tauto
      · rw [extractFromFile_classes, extractFromFile_classes,
          extractFromFile_classes, extractFromFile_classes]
        simp only [Finset.mem_union]
        tauto
      · rw [extractFromFile_methods, extractFromFile_methods,
          extractFromFile_methods, extractFromFile_methods]
        simp only [Finset.mem_union]
        tauto
      · rw [extractFromFile_constants, extractFromFile_constants,
          extractFromFile_constants, extractFromFile_constants]
        simp only [Finset.mem_union]
        tauto

theorem processFile_comm (st : Aggregate × Nat) (f g : PHPFile) :
    processFile (processFile st f) g = processFile (processFile st g) f := by
  cases hfb : shouldSkip f.parts <;> cases hgb : shouldSkip g.parts <;>
    simp [processFile_eq, hfb, hgb, extractFromFile_snd]
  exact ⟨extractFromFile_fst_comm st.1 f.content g.content, by omega⟩

/-- The `extract_all` fold is invariant under permuting the corpus. -/
theorem foldl_processFile_perm {l1 l2 : List PHPFile} (h : l1.Perm l2) :
    ∀ st : Aggregate × Nat, l1.foldl processFile st = l2.foldl processFile st := by
  induction h with
  | nil => intro st; rfl
  | cons x _ ih => intro st; rw [List.foldl_cons, List.foldl_cons, ih]
  | swap x y l =>
    intro st
    rw [List.foldl_cons, List.foldl_cons, List.foldl_cons, List.foldl_cons,
      processFile_comm]
  | trans _ _ ih1 ih2 => intro st; rw [ih1, ih2]

theorem extractAllState_perm {l1 l2 : List PHPFile} (h : l1.Perm l2) :
    extractAllState l1 = extractAllState l2 := by
  rw [extractAllState, extractAllState, foldl_processFile_perm h]

/-! ## Report-level lemmas -/

theorem sortNames_toFinset (s : Finset String) : (sortNames s).toFinset = s :=
  Finset.sort_toFinset _ _

theorem sortNames_length (s : Finset String) : (sortNames s).length = s.card :=
  Finset.length_sort _

theorem sortNames_sorted_lt (s : Finset String) : List.Sorted (· < ·) (sortNames s) :=
  Finset.sort_sorted_lt _

theorem buildReport_stats_counts (files : List PHPFile) :
    (buildReport files).stats.functions = (extractAllAgg files).functions.card ∧
    (buildReport files).stats.classes = (extractAllAgg files).classes.card ∧
    (buildReport files).stats.methods = (extractAllAgg files).methods.card ∧
    (buildReport files).stats.constants = (extractAllAgg files).constants.card := by
  refine ⟨?_, ?_, ?_, ?_⟩ <;>
    simp [buildReport, buildStats, extractAll, sortNames_length]

theorem buildReport_total_unique (files : List PHPFile) :
    (buildReport files).stats.total_unique =
      ((extractAllAgg files).functions ∪ (extractAllAgg files).classes ∪
        (extractAllAgg files).methods).card := by
  simp [buildReport, buildStats, extractAll, sortNames_toFinset]

/-! ## Claim theorems -/

/-- C1, counterexample: when no explicit stubs path is supplied and the
retrieval step itself fails during Acquiring (`git clone` exits non-zero),
the run fails *and the scratch directory still exists afterwards* — `mkdtemp`
and `clone_stubs` run before the `try`/`finally` block and before
`cleanup_needed = True`, so no cleanup path is reached.  This refutes the
claim that cleanup is unconditional on every exit path. -/
theorem c1_cleanup_counterexample :
    (generateBuiltins (fun _ => true) none "tmp" false true []).report = none ∧
    (generateBuiltins (fun _ => true) none "tmp" false true []).scratchCreated = true ∧
    (generateBuiltins (fun _ => true) none "tmp" false true []).scratchExists = true := by
  exact ⟨rfl, rfl, rfl⟩

/-- C1, amended: if acquisition creates a scratch directory and the retrieval
step *succeeds*, then the scratch directory does not exist after the run ends,
whether the remaining stages succeed or fail (the `finally` clause removes it
unconditionally); but if the retrieval step itself exits non-zero during
Acquiring, the scratch directory survives the run. -/
theorem c1_cleanup_amended :
    (∀ (fs : String → Bool) (tmp : String) (writeOk : Bool) (corpus : List PHPFile),
      (generateBuiltins fs none tmp true writeOk corpus).scratchExists = false) ∧
    (∀ (fs : String → Bool) (tmp : String) (writeOk : Bool) (corpus : List PHPFile),
      (generateBuiltins fs none tmp false writeOk corpus).scratchExists = true) := by
  constructor
  · intro fs tmp writeOk corpus
    cases writeOk <;> rfl
  · intro fs tmp writeOk corpus
    cases writeOk <;> rfl

/-- C2: an unreadable file contributes zero symbols (the aggregate is
unchanged and a warning is recorded instead of an exception), and in the
Scenario E corpus — one unreadable file alongside ten readable files each
declaring a unique function — exactly one warning is logged, the Report
counts exactly 10 functions, and the run exits 0. -/
theorem c2_unreadable_file_isolated :
    (∀ agg : Aggregate, extractFromFile agg none = (agg, true)) ∧
    (extractAllState scenarioEFiles).2 = 1 ∧
    (buildReport scenarioEFiles).stats.functions = 10 ∧
    mainExit (fun _ => true) (some "stubs") "tmp" true true scenarioEFiles = 0 := by
  refine ⟨fun agg => rfl, by decide, ?_, rfl⟩
  rw [(buildReport_stats_counts scenarioEFiles).1]
  decide

/-- C3, counterexample: the acquisition split never consults the filesystem.
With an existence oracle under which the explicit path `"missing"` does not
exist, the run still uses the path directly, performs no clone, creates no
scratch directory and owns nothing — refuting the claim that an explicit but
non-existing path falls back to a fresh scratch clone. -/
theorem c3_acquire_counterexample :
    ((fun _ : String => false) "missing" = false) ∧
    (generateBuiltins (fun _ => false) (some "missing") "tmp" true true []).usedPath
      = "missing" ∧
    (generateBuiltins (fun _ => false) (some "missing") "tmp" true true []).scratchCreated
      = false ∧
    (generateBuiltins (fun _ => false) (some "missing") "tmp" true true []).cloned
      = false ∧
    (generateBuiltins (fun _ => false) (some "missing") "tmp" true true []).cleanupNeeded
      = false := by
  exact ⟨rfl, rfl, rfl, rfl, rfl⟩

/-- C3, amended: the Source Acquirer splits solely on whether an explicit
corpus path is *supplied* (`stubs_path is None`), not on whether it exists:
any supplied path — existing or not — is used directly and the run does not
own it; only when no path is supplied is a fresh scratch directory created, a
shallow copy fetched into it, and ownership taken. -/
theorem c3_acquire_amended :
    (∀ (fs : String → Bool) (p tmp : String) (cloneOk writeOk : Bool)
        (corpus : List PHPFile),
      (generateBuiltins fs (some p) tmp cloneOk writeOk corpus).usedPath = p ∧
      (generateBuiltins fs (some p) tmp cloneOk writeOk corpus).scratchCreated = false ∧
      (generateBuiltins fs (some p) tmp cloneOk writeOk corpus).cloned = false ∧
      (generateBuiltins fs (some p) tmp cloneOk writeOk corpus).cleanupNeeded = false) ∧
    (∀ (fs : String → Bool) (tmp : String) (writeOk : Bool) (corpus : List PHPFile),
      (generateBuiltins fs none tmp true writeOk corpus).usedPath = tmp ∧
      (generateBuiltins fs none tmp true writeOk corpus).scratchCreated = true ∧
      (generateBuiltins fs none tmp true writeOk corpus).cloned = true ∧
      (generateBuiltins fs none tmp true writeOk corpus).cleanupNeeded = true) := by
  constructor
  · intro fs p tmp cloneOk writeOk corpus
    cases writeOk <;> exact ⟨rfl, rfl, rfl, rfl⟩
  · intro fs tmp writeOk corpus
    cases writeOk <;> exact ⟨rfl, rfl, rfl, rfl⟩

/-- C4: the Name Filter accepts a candidate iff its lowercase form is outside
the fixed reserved-word set and its length is at least 2; reserved words are
rejected regardless of casing (`if`, `If`, `RETURN`); the filter guards the
Function and Method categories (every name those categories add passed it),
while Class and Constant candidates bypass it (`If` and `IF` land in those
sets despite being invalid as function names). -/
theorem c4_name_filter :
    (∀ name : String, isValidFunctionName name = true ↔
        (keywords.contains (strLower name) = false ∧ 2 ≤ name.length)) ∧
    (∀ name : String, keywords.contains (strLower name) = true →
        isValidFunctionName name = false) ∧
    (isValidFunctionName "if" = false ∧ isValidFunctionName "If" = false ∧
      isValidFunctionName "RETURN" = false) ∧
    (∀ (agg : Aggregate) (text n : String),
        n ∈ (extractFromFile agg (some text)).1.functions →
          n ∈ agg.functions ∨ isValidFunctionName n = true) ∧
    (∀ (agg : Aggregate) (text n : String),
        n ∈ (extractFromFile agg (some text)).1.methods →
          n ∈ agg.methods ∨ isValidFunctionName n = true) ∧
    ((extractFromFile emptyAggregate (some "interface If")).1.classes = {"If"} ∧
      isValidFunctionName "If" = false) ∧
    ((extractFromFile emptyAggregate (some "const IF = 1")).1.constants = {"IF"} ∧
      isValidFunctionName "IF" = false) := by
  refine ⟨?_, ?_, ⟨by decide, by decide, by decide⟩, ?_, ?_, ⟨by decide, by decide⟩,
    ⟨by decide, by decide⟩⟩
  · intro name
    simp [isValidFunctionName, Bool.and_eq_true, Bool.not_eq_true']
  · intro name h
    simp only [isValidFunctionName, h, Bool.not_true, Bool.false_and]
  · intro agg text n hn
    rw [extractFromFile_functions] at hn
    simp only [Finset.mem_union, List.mem_toFinset, List.mem_filter] at hn
    rcases hn with (h | ⟨_, hv⟩) | ⟨_, hv⟩
    · exact Or.inl h
    · exact Or.inr hv
    · exact Or.inr hv
  · intro agg text n hn
    rw [extractFromFile_methods] at hn
    simp only [Finset.mem_union, List.mem_toFinset, List.mem_filter] at hn
    rcases hn with h | ⟨_, hv⟩
    · exact Or.inl h
    · exact Or.inr hv

/-- C4 witness: the theorem applied at the concrete candidate `RETURN`. -/
theorem c4_name_filter_witness :
    keywords.contains (strLower "RETURN") = true ∧
      isValidFunctionName "RETURN" = false :=
  ⟨by decide, c4_name_filter.2.1 "RETURN" (by decide)⟩

/-- C5: in every generated Report, each per-category count equals the length
of the corresponding symbols list, and `total_unique` is the cardinality of
the union of the functions, classes and methods sets — constants excluded. -/
theorem c5_count_consistency :
    ∀ files : List PHPFile,
      (buildReport files).stats.functions = (buildReport files).symbols.functions.length ∧
      (buildReport files).stats.classes = (buildReport files).symbols.classes.length ∧
      (buildReport files).stats.methods = (buildReport files).symbols.methods.length ∧
      (buildReport files).stats.constants = (buildReport files).symbols.constants.length ∧
      (buildReport files).stats.total_unique =
        ((buildReport files).symbols.functions.toFinset ∪
          (buildReport files).symbols.classes.toFinset ∪
          (buildReport files).symbols.methods.toFinset).card ∧
      (buildReport files).stats.total_unique =
        ((extractAllAgg files).functions ∪ (extractAllAgg files).classes ∪
          (extractAllAgg files).methods).card := by
  intro files
  exact ⟨rfl, rfl, rfl, rfl, rfl, buildReport_total_unique files⟩

/-- C6: each of the four symbols lists of a Report is sorted strictly
ascending by code point, and the lists depend only on the aggregated set
content: permuting the corpus (and hence the order in which names were
inserted into the Aggregate) leaves them unchanged. -/
theorem c6_sorted_output :
    ∀ files : List PHPFile,
      List.Sorted (· < ·) (buildReport files).symbols.functions ∧
      List.Sorted (· < ·) (buildReport files).symbols.classes ∧
      List.Sorted (· < ·) (buildReport files).symbols.methods ∧
      List.Sorted (· < ·) (buildReport files).symbols.constants ∧
      ∀ files2 : List PHPFile, files.Perm files2 →
        (buildReport files).symbols = (buildReport files2).symbols := by
  intro files
  refine ⟨sortNames_sorted_lt _, sortNames_sorted_lt _, sortNames_sorted_lt _,
    sortNames_sorted_lt _, ?_⟩
  intro files2 hp
  have hagg : extractAllAgg files = extractAllAgg files2 :=
    congrArg Prod.fst (extractAllState_perm hp)
  simp [buildReport, extractAll, hagg]

/-- C6 witness: the theorem applied to a concrete two-file corpus and its
swap. -/
theorem c6_sorted_output_witness :
    (buildReport [⟨["a.php"], "s", some "function aone()"⟩,
        ⟨["b.php"], "s", some "class Btwo"⟩]).symbols =
      (buildReport [⟨["b.php"], "s", some "class Btwo"⟩,
        ⟨["a.php"], "s", some "function aone()"⟩]).symbols :=
  (c6_sorted_output _).2.2.2.2 _ (List.Perm.swap _ _ _)

/-- C7: extraction is idempotent under merging — running `_extract_from_file`
twice over the same content yields the same Aggregate as running it once
(every category merges by set union). -/
theorem c7_extract_idempotent :
    ∀ (agg : Aggregate) (content : Option String),
      (extractFromFile (extractFromFile agg content).1 content).1 =
        (extractFromFile agg content).1 := by
  intro agg content
  cases content with
  | none => rfl
  | some text =>
    ext x <;>
      simp only [extractFromFile_functions, extractFromFile_classes,
        extractFromFile_methods, extractFromFile_constants, Finset.mem_union] <;>
      tauto

/-- C8: a file is skipped exactly when one of its path segments is equal (as a
whole segment, not as a substring) to an entry of SKIP_DIRS; a skipped file
contributes nothing, an unskipped file is scanned; `tests` as a segment skips
the file even if it declares valid symbols, while `mytests` does not match. -/
theorem c8_skip_dirs :
    (∀ parts : List String, shouldSkip parts = true ↔ ∃ seg ∈ parts, seg ∈ SKIP_DIRS) ∧
    (∀ (st : Aggregate × Nat) (f : PHPFile), shouldSkip f.parts = true →
        processFile st f = st) ∧
    (∀ (st : Aggregate × Nat) (f : PHPFile), shouldSkip f.parts = false →
        processFile st f =
          ((extractFromFile st.1 f.content).1,
            st.2 + (if (extractFromFile st.1 f.content).2 then 1 else 0))) ∧
    (shouldSkip ["phpstorm-stubs", "tests", "Foo.php"] = true ∧
      shouldSkip ["phpstorm-stubs", "mytests", "Foo.php"] = false) ∧
    extractAllAgg [⟨["phpstorm-stubs", "tests", "Foo.php"], "tests",
        some "function validname()"⟩] = emptyAggregate := by
  refine ⟨?_, ?_, ?_, ⟨by decide, by decide⟩, by decide⟩
  · intro parts
    simp only [shouldSkip, List.any_eq_true]
    constructor
    · rintro ⟨d, hd, hp⟩
      exact ⟨d, List.elem_iff.mp hp, hd⟩
    · rintro ⟨seg, hs, hm⟩
      exact ⟨seg, hm, List.elem_iff.mpr hs⟩
  · intro st f h
    rw [processFile_eq, if_pos h]
  · intro st f h
    rw [processFile_eq, if_neg]
    simp [h]

/-- C8 witness: the theorem applied to a concrete file under a `tests`
segment. -/
theorem c8_skip_dirs_witness :
    shouldSkip ["tests", "x.php"] = true ∧
      processFile (emptyAggregate, 0) ⟨["tests", "x.php"], "tests", some "function foo("⟩ =
        (emptyAggregate, 0) :=
  ⟨by decide, c8_skip_dirs.2.1 _ _ (by decide)⟩

/-- C9: the Aggregate is independent of corpus traversal order — any two
permutations of the file list produce identical name sets, because each file's
contribution merges in by commutative, associative set union. -/
theorem c9_order_independence :
    ∀ l1 l2 : List PHPFile, l1.Perm l2 → extractAllAgg l1 = extractAllAgg l2 := by
  intro l1 l2 h
  exact congrArg Prod.fst (extractAllState_perm h)

/-- C9 witness: the theorem applied to a concrete two-file corpus and its
swap. -/
theorem c9_order_independence_witness :
    extractAllAgg [⟨["a.php"], "s", some "function aone()"⟩,
        ⟨["b.php"], "s", some "class Btwo"⟩] =
      extractAllAgg [⟨["b.php"], "s", some "class Btwo"⟩,
        ⟨["a.php"], "s", some "function aone()"⟩] :=
  c9_order_independence _ _ (List.Perm.swap _ _ _)

/-- C10 (implicit): the method pattern's optional visibility/static groups
make every plain-function-pattern match also a method-pattern match with the
same captured name; both categories apply the same Name Filter, so after
processing any corpus the Functions set is a subset of the Methods set, and
`total_unique` equals the cardinality of Classes ∪ Methods. -/
theorem c10_functions_subset_methods :
    (∀ (s : List Char) (n : String) (r : List Char),
        matchFun1 s = some (n, r) → matchMeth s = some (n, r)) ∧
    (∀ files : List PHPFile,
        (extractAllAgg files).functions ⊆ (extractAllAgg files).methods) ∧
    (∀ files : List PHPFile,
        (buildReport files).stats.total_unique =
          ((extractAllAgg files).classes ∪ (extractAllAgg files).methods).card) := by
  refine ⟨fun s n r h => matchFun1_to_matchMeth h, extractAllAgg_funs_subset, ?_⟩
  intro files
  rw [buildReport_total_unique]
  congr 1
  have hsub := extractAllAgg_funs_subset files
  ext x
  simp only [Finset.mem_union]
  constructor
  · rintro ((hf | hc) | hm)
    · exact Or.inr (hsub hf)
    · exact Or.inl hc
    · exact Or.inr hm
  · rintro (hc | hm)
    · exact Or.inl (Or.inr hc)
    · exact Or.inr hm

/-- C10 witness: the pointwise part applied at a concrete declaration. -/
theorem c10_functions_subset_methods_witness :
    matchFun1 "function ab(".data = some ("ab", []) ∧
      matchMeth "function ab(".data = some ("ab", []) :=
  ⟨by decide, c10_functions_subset_methods.1 _ _ _ (by decide)⟩

end PhpBuiltins
